import Mathlib

/-!
Verification of the lazy, dependency-tracked array-engine specification
implied by the repository's NDArray tutorial notebook
(src/TP01/.ipynb_checkpoints/ndarray-checkpoint.ipynb).

The repository contains no implementation source: every operation the
notebook invokes is provided by an external library. Following the
specification, the subsystems the claims are about (array-handle
operations, the serialization container, the dependency graph and the
scheduler) are modelled here from the specification's own words, and the
claims are settled against those models.
-/

/-! ### Element types and errors -/

/-- Modelled from the spec: element dtypes of the external tensor library
(the notebook demonstrates float32, int32, float16; the dtype itself is
implemented in the external library, not in this repository). -/
inductive DType
  | float16
  | float32
  | float64
  | int32
  | int64
  | uint8
  deriving DecidableEq

/-- Modelled from the spec: the synchronous error kinds of section 7
(ShapeMismatch, BroadcastError, DeviceMismatch); the implementation is
in the external library, not in this repository. -/
inductive EngineError
  | ShapeMismatch
  | BroadcastError
  | DeviceMismatch
  deriving DecidableEq

/-! ### Host-side array values (shape, dtype, row-major data) -/

/-- Modelled from the spec: an array value with its shape (ordered
sequence of axis lengths), element dtype, and row-major flat data; the
Array Handle layer itself lives in the external library. -/
structure NDArray where
  shape : List Nat
  dtype : DType
  data : List Int
  deriving DecidableEq

/-- Row-major flat position of a multi-index inside a shape. -/
def flatIndex : List Nat → List Nat → Nat
  | _ :: ds, i :: is => i * ds.prod + flatIndex ds is
  | _, _ => 0

/-- All multi-indices of a shape, in row-major order. -/
def indicesOf : List Nat → List (List Nat)
  | [] => [[]]
  | d :: ds => (List.range d).flatMap fun i => (indicesOf ds).map (i :: ·)

/-- The element of an array at a multi-index (0 past the end). -/
def valueAt (h : NDArray) (idx : List Nat) : Int :=
  h.data.getD (flatIndex h.shape idx) 0

/-- Modelled from the spec: `reshape(handle, newShape)` is valid only if
the total element count is unchanged and fails with ShapeMismatch
otherwise; the reshape kernel is in the external library. -/
def reshape (h : NDArray) (newShape : List Nat) : Except EngineError NDArray :=
  if newShape.prod = h.shape.prod then
    .ok ⟨newShape, h.dtype, h.data⟩
  else
    .error .ShapeMismatch

/-- A source shape broadcasts to a target shape when ranks agree and
every mismatched source axis has length 1. -/
def bcastOK (src tgt : List Nat) : Bool :=
  src.length = tgt.length &&
    (List.zip src tgt).all fun p => p.1 = p.2 || p.1 = 1

/-- Source-side multi-index corresponding to a target multi-index:
coordinates on broadcast (length-1) source axes collapse to 0. -/
def srcIndex (src idx : List Nat) : List Nat :=
  (List.zip src idx).map fun p => if p.1 = 1 then 0 else p.2

/-- Modelled from the spec: `broadcastTo(handle, targetShape)` is valid
only where mismatched axis lengths in the source are 1 and fails with
BroadcastError otherwise; the broadcast kernel is in the external
library. -/
def broadcastTo (h : NDArray) (tgt : List Nat) : Except EngineError NDArray :=
  if bcastOK h.shape tgt then
    .ok ⟨tgt, h.dtype, (indicesOf tgt).map fun idx => valueAt h (srcIndex h.shape idx)⟩
  else
    .error .BroadcastError

/-- Per-axis result shape of a broadcasting binary operation. -/
def bcastShape (s t : List Nat) : List Nat :=
  (List.zip s t).map fun p => max p.1 p.2

/-- Two same-rank shapes are compatible for a broadcasting binary
operation when every axis pair is equal or one side is 1. -/
def binOK (s t : List Nat) : Bool :=
  s.length = t.length &&
    (List.zip s t).all fun p => p.1 = p.2 || p.1 = 1 || p.2 = 1

/-- Modelled from the spec: elementwise addition with automatic
broadcasting of length-1 axes, as demonstrated by the notebook's
`a + b` cell on shapes (3,2) and (1,2); the kernel is in the external
library. -/
def ndAdd (a b : NDArray) : Except EngineError NDArray :=
  if binOK a.shape b.shape then
    let out := bcastShape a.shape b.shape
    .ok ⟨out, a.dtype,
      (indicesOf out).map fun idx =>
        valueAt a (srcIndex a.shape idx) + valueAt b (srcIndex b.shape idx)⟩
  else
    .error .ShapeMismatch

/-- Modelled from the spec: array creation from host data with an
optional dtype argument; the notebook documents that float32 is used by
default when no dtype is passed. The creation routine itself is in the
external library. -/
def mkArray (data : List Int) (dtype : Option DType) : NDArray :=
  ⟨[data.length], dtype.getD .float32, data⟩

/-! ### Persisted array format (save / load) -/

/-- Modelled from the spec: one record of the persisted array container,
{dtype tag, ordered shape, device-independent raw byte payload in
row-major layout}; the container implementation is in the external
library. -/
structure ArrayRecord where
  dtype : DType
  shape : List Nat
  payload : List Nat
  deriving DecidableEq

/-- Numeric tag of a dtype in the persisted format. -/
def dtypeTag : DType → Nat
  | .float16 => 0
  | .float32 => 1
  | .float64 => 2
  | .int32 => 3
  | .int64 => 4
  | .uint8 => 5

/-- Decode a dtype tag of the persisted format. -/
def decodeDType : Nat → Option DType
  | 0 => some .float16
  | 1 => some .float32
  | 2 => some .float64
  | 3 => some .int32
  | 4 => some .int64
  | 5 => some .uint8
  | _ => none

/-- Read exactly `n` items off the front of a stream. -/
def readN (n : Nat) (l : List Nat) : Option (List Nat × List Nat) :=
  if n ≤ l.length then some (l.take n, l.drop n) else none

/-- Serialize one record: dtype tag, rank, shape, payload length,
payload. -/
def encodeRecord (r : ArrayRecord) : List Nat :=
  dtypeTag r.dtype :: r.shape.length :: (r.shape ++ r.payload.length :: r.payload)

/-- Modelled from the spec: a save operation serializes a sequence of
array records into one flat container stream; the implementation is in
the external library. -/
def save (rs : List ArrayRecord) : List Nat :=
  rs.length :: rs.flatMap encodeRecord

/-- Parse one record off the front of a stream. -/
def decodeRecord : List Nat → Option (ArrayRecord × List Nat)
  | tag :: rank :: rest =>
    match decodeDType tag with
    | some dt =>
      match readN rank rest with
      | some (sh, rest2) =>
        match rest2 with
        | plen :: rest3 =>
          match readN plen rest3 with
          | some (pay, rest4) => some (⟨dt, sh, pay⟩, rest4)
          | none => none
        | [] => none
      | none => none
    | none => none
  | _ => none

/-- Parse exactly `n` records off the front of a stream. -/
def decodeRecords : Nat → List Nat → Option (List ArrayRecord × List Nat)
  | 0, l => some ([], l)
  | n + 1, l =>
    match decodeRecord l with
    | some (r, l2) =>
      match decodeRecords n l2 with
      | some (rs, l3) => some (r :: rs, l3)
      | none => none
    | none => none

/-- Modelled from the spec: a load operation deserializes a container
stream back into the sequence of array records; the implementation is in
the external library. -/
def load (l : List Nat) : Option (List ArrayRecord) :=
  match l with
  | n :: rest =>
    match decodeRecords n rest with
    | some (rs, []) => some rs
    | _ => none
  | [] => none

/-! ### Buffers and handle ownership (copy / alias / slice) -/

/-- Modelled from the spec: the buffer store — an allocation counter
(buffer ids below it are allocated) and the contents of each buffer; the
reference-counted Buffer itself is in the external library. -/
structure Heap where
  next : Nat
  store : Nat → List Int

/-- Modelled from the spec: an Array Handle as a lightweight descriptor
referencing a Buffer by id; the handle type is in the external
library. -/
structure ArrayHandle where
  bufId : Nat
  shape : List Nat
  deriving DecidableEq

/-- Modelled from the spec: `copy(handle)` allocates a fresh Buffer and
duplicates the source contents into it ("the copy method makes a deep
copy of the array and its data"); the kernel is in the external
library. -/
def copyArray (hp : Heap) (h : ArrayHandle) : Heap × ArrayHandle :=
  (⟨hp.next + 1, fun b => if b = hp.next then hp.store h.bufId else hp.store b⟩,
   ⟨hp.next, h.shape⟩)

/-- Modelled from the spec: plain assignment copies a reference to the
same array, sharing the Buffer. -/
def aliasArray (h : ArrayHandle) : ArrayHandle := h

/-- Modelled from the spec: `slice(handle, axis0Range)` returns a new
handle sharing the Buffer, adjusting only metadata. -/
def sliceArray (h : ArrayHandle) (lo hi : Nat) : ArrayHandle :=
  ⟨h.bufId, (hi - lo) :: h.shape.tail⟩

/-- Overwrite the contents of one buffer in the store. -/
def writeBuf (hp : Heap) (b : Nat) (v : List Int) : Heap :=
  ⟨hp.next, fun x => if x = b then v else hp.store x⟩

/-! ### Operation nodes, dependency graph and schedules -/

/-- Modelled from the spec: an Operation Node — ordered read buffers,
ordered write buffers, and the kernel, which maps the values of the read
buffers to a value for each written buffer. The node's sequence id is
its position in the submission list. The engine itself is in the
external library's backend. -/
structure OpNode where
  reads : List Nat
  writes : List Nat
  kernel : List Int → Nat → Int

instance : Inhabited OpNode := ⟨⟨[], [], fun _ _ => 0⟩⟩

/-- Run one node's kernel: buffers the node writes receive the kernel's
output, all other buffers keep their value. -/
def runNode (n : OpNode) (st : Nat → Int) : Nat → Int :=
  fun b => if b ∈ n.writes then n.kernel (n.reads.map st) b else st b

/-- Execute the nodes of a submission list in the order given by a
schedule (a list of node ids). -/
def execSched (subs : List OpNode) (st : Nat → Int) (sched : List Nat) : Nat → Int :=
  sched.foldl (fun s i => runNode (subs.getD i default) s) st

/-- Modelled from the spec: the Dependency Graph's per-Buffer record —
the most recent writer and the readers registered since that writer. -/
structure BufRec where
  lastWriter : Option Nat
  readers : List Nat

/-- Modelled from the spec: registering node `i` updates the per-Buffer
records — a written buffer gets `i` as last writer with an empty reader
set, a read buffer gains `i` as a pending reader. -/
def regStep (recs : Nat → BufRec) (i : Nat) (n : OpNode) : Nat → BufRec :=
  fun b =>
    if b ∈ n.writes then ⟨some i, []⟩
    else if b ∈ n.reads then ⟨(recs b).lastWriter, i :: (recs b).readers⟩
    else recs b

/-- Per-Buffer records after registering the first `k` submitted
nodes. -/
def recsUpTo (subs : List OpNode) : Nat → Nat → BufRec
  | 0 => fun _ => ⟨none, []⟩
  | k + 1 => regStep (recsUpTo subs k) k (subs.getD k default)

/-- Modelled from the spec: the wait-set of node `i` — the last writer
of each input buffer, plus the pending readers and last writer of each
output buffer, all looked up at registration time. -/
def waitSet (subs : List OpNode) (i : Nat) : List Nat :=
  let recs := recsUpTo subs i
  let n := subs.getD i default
  (n.reads.filterMap fun b => (recs b).lastWriter) ++
    (n.writes.flatMap fun b => (recs b).readers ++ (recs b).lastWriter.toList)

/-- A schedule respects the dependency graph when every node runs only
after every member of its wait-set. -/
def ValidSchedule (subs : List OpNode) (sched : List Nat) : Prop :=
  ∀ j ∈ sched, ∀ w ∈ waitSet subs j, sched.indexOf w < sched.indexOf j

/-- Two nodes are independent when their buffer footprints (reads and
writes) are disjoint. -/
def IndependentNodes (subs : List OpNode) : Prop :=
  ∀ i < subs.length, ∀ j < subs.length, i ≠ j →
    ∀ b ∈ (subs.getD i default).reads ++ (subs.getD i default).writes,
      b ∉ (subs.getD j default).reads ++ (subs.getD j default).writes

/-! ### Scheduler state: submit and wait_all -/

/-- Modelled from the spec: the Scheduler's state — the submitted nodes
in order, the ids whose kernels have been executed, and the buffer
contents. The scheduler is in the external library's backend. -/
structure EngineState where
  nodes : List OpNode
  executed : List Nat
  bufs : Nat → Int

/-- Modelled from the spec: `submit` allocates a node id (its position
in the submission order), records the node, and returns the id; it
executes no kernel — "the Python thread just pushes this operation into
the backend engine and then returns". -/
def submit (s : EngineState) (n : OpNode) : EngineState × Nat :=
  (⟨s.nodes ++ [n], s.executed, s.bufs⟩, s.nodes.length)

/-- Modelled from the spec: `wait_all` blocks until every node has
executed; in the model it is the step that actually runs the kernels,
along a schedule chosen by the engine. -/
def waitAll (s : EngineState) (sched : List Nat) : EngineState :=
  ⟨s.nodes, s.executed ++ sched, execSched s.nodes s.bufs sched⟩

/-! ### Failure propagation -/

/-- Modelled from the spec: the asynchronous failure kinds delivered as
a terminal Failed state. -/
inductive FailKind
  | KernelFailure
  | AllocationFailure
  deriving DecidableEq

/-- Modelled from the spec: terminal outcome of a node — Done, or Failed
carrying the root error verbatim. -/
inductive Outcome
  | Done
  | Failed (root : FailKind)
  deriving DecidableEq

/-- Modelled from the spec: a node of the failure-propagation model —
its direct dependencies (earlier node ids) and an optional injected
execution failure. -/
structure FNode where
  deps : List Nat
  inject : Option FailKind

instance : Inhabited FNode := ⟨⟨[], none⟩⟩

/-- The root error of the first failed dependency, if any. -/
def firstFailedDep (acc : List Outcome) (deps : List Nat) : Option FailKind :=
  deps.findSome? fun d =>
    match acc.getD d .Done with
    | .Failed e => some e
    | .Done => none

/-- Modelled from the spec: a node whose dependency failed is marked
Failed with that root error without executing; otherwise its own kernel
runs and fails only if a failure is injected. -/
def stepOutcome (acc : List Outcome) (n : FNode) : Outcome :=
  match firstFailedDep acc n.deps with
  | some e => .Failed e
  | none =>
    match n.inject with
    | some e => .Failed e
    | none => .Done

/-- Outcomes of the first `k` nodes, computed in dependency order. -/
def outcomesUpTo (nodes : List FNode) : Nat → List Outcome
  | 0 => []
  | k + 1 =>
    let prev := outcomesUpTo nodes k
    prev ++ [stepOutcome prev (nodes.getD k default)]

/-- Terminal outcomes of all nodes. -/
def outcomes (nodes : List FNode) : List Outcome :=
  outcomesUpTo nodes nodes.length

/-- Terminal outcome of one node. -/
def outcomeAt (nodes : List FNode) (j : Nat) : Outcome :=
  (outcomes nodes).getD j .Done

/-- Whether node `j`'s kernel was executed: it runs exactly when no
dependency failed. -/
def kernelRan (nodes : List FNode) (j : Nat) : Bool :=
  (firstFailedDep (outcomes nodes) (nodes.getD j default).deps).isNone

/-- Dependency ids are always smaller than the depending node's id. -/
def WfDeps (nodes : List FNode) : Prop :=
  ∀ j < nodes.length, ∀ d ∈ (nodes.getD j default).deps, d < j

/-- Node `j` depends on node `i`, directly or transitively. -/
inductive DependsOn (nodes : List FNode) : Nat → Nat → Prop
  | direct {i j : Nat} : i ∈ (nodes.getD j default).deps → DependsOn nodes j i
  | tail {i k j : Nat} : k ∈ (nodes.getD j default).deps → DependsOn nodes k i →
      DependsOn nodes j i

/-! ### Stated correctness predicates -/

/-- Read-after-write correctness of a schedule: a node C reading buffer
B whose registered last writer is A runs after A and observes, at B,
exactly the value A's kernel wrote there. -/
def ReadAfterWriteCorrect (subs : List OpNode) (sched : List Nat)
    (st0 : Nat → Int) (B : Nat) : Prop :=
  ∀ C A, C < subs.length → B ∈ (subs.getD C default).reads →
    ((recsUpTo subs C) B).lastWriter = some A →
    sched.indexOf A < sched.indexOf C ∧
      execSched subs st0 (sched.take (sched.indexOf C)) B =
        (subs.getD A default).kernel
          ((subs.getD A default).reads.map
            (execSched subs st0 (sched.take (sched.indexOf A)))) B

/-- Write ordering of a schedule: a node writing buffer B runs after
every previously registered reader and writer of B. -/
def WriteOrderingRespected (subs : List OpNode) (sched : List Nat) (B : Nat) : Prop :=
  ∀ i j, i < j → j < subs.length → B ∈ (subs.getD j default).writes →
    (B ∈ (subs.getD i default).reads ∨ B ∈ (subs.getD i default).writes) →
    sched.indexOf i < sched.indexOf j

/-! ### Concrete instances used to exercise the theorems -/

/-- A two-node submission: node 0 fills buffer 0 with 1, node 1 reads
buffer 0 and copies it into buffer 1. -/
def fillThenCopy : List OpNode :=
  [⟨[], [0], fun _ _ => 1⟩, ⟨[0], [1], fun v _ => v.getD 0 0⟩]

/-- Two independent nodes touching disjoint buffers. -/
def twoIndependent : List OpNode :=
  [⟨[], [0], fun _ _ => 1⟩, ⟨[], [1], fun _ _ => 2⟩]

/-- Three nodes: node 0 fails with an injected AllocationFailure, node 1
depends on node 0, node 2 is unrelated. -/
def failChain : List FNode :=
  [⟨[], some .AllocationFailure⟩, ⟨[0], none⟩, ⟨[], none⟩]

/-! ### Theorems -/

lemma decodeDType_dtypeTag (d : DType) : decodeDType (dtypeTag d) = some d := by
  cases d <;> rfl

lemma readN_append (xs rest : List Nat) : readN xs.length (xs ++ rest) = some (xs, rest) := by
  simp [readN, List.take_left, List.drop_left]

lemma decodeRecord_encodeRecord (r : ArrayRecord) (rest : List Nat) :
    decodeRecord (encodeRecord r ++ rest) = some (r, rest) := by
  simp [encodeRecord, decodeRecord, decodeDType_dtypeTag, List.cons_append,
    List.append_assoc, readN_append]

lemma decodeRecords_encode : ∀ (rs : List ArrayRecord) (rest : List Nat),
    decodeRecords rs.length (rs.flatMap encodeRecord ++ rest) = some (rs, rest) := by
  intro rs
  induction rs with
  | nil => intro rest; simp [decodeRecords]
  | cons r rs ih =>
    intro rest
    simp [decodeRecords, List.flatMap_cons, List.append_assoc,
      decodeRecord_encodeRecord, ih]

/-- Claim C4: for every sequence of arrays, loading the result of saving
that sequence reproduces every array's shape, dtype, and raw byte
content exactly; in particular load (save [arr1, arr2]) yields records
identical to arr1 and arr2. -/
theorem claim_C4 :
    (∀ rs : List ArrayRecord, load (save rs) = some rs) ∧
    (∀ r1 r2 : ArrayRecord, load (save [r1, r2]) = some [r1, r2]) := by
  have h1 : ∀ rs : List ArrayRecord, load (save rs) = some rs := by
    intro rs
    have h := decodeRecords_encode rs []
    rw [List.append_nil] at h
    simp [load, save, h]
  exact ⟨h1, fun r1 r2 => h1 [r1, r2]⟩

/-- Claim C2: reshape succeeds exactly when the product of the new shape
equals the product of the old shape, and raises ShapeMismatch otherwise;
for a handle of shape (2,3,4), reshape to (4,6) succeeds and reshape to
(5,5) fails with ShapeMismatch. -/
theorem claim_C2 :
    (∀ (h : NDArray) (ns : List Nat), ns.prod = h.shape.prod →
       reshape h ns = .ok ⟨ns, h.dtype, h.data⟩) ∧
    (∀ (h : NDArray) (ns : List Nat), ns.prod ≠ h.shape.prod →
       reshape h ns = .error .ShapeMismatch) ∧
    (∀ (dt : DType) (d : List Int),
       reshape ⟨[2, 3, 4], dt, d⟩ [4, 6] = .ok ⟨[4, 6], dt, d⟩) ∧
    (∀ (dt : DType) (d : List Int),
       reshape ⟨[2, 3, 4], dt, d⟩ [5, 5] = .error .ShapeMismatch) := by
  refine ⟨?_, ?_, ?_, ?_⟩
  · intro h ns hp; simp [reshape, hp]
  · intro h ns hp; simp [reshape, hp]
  · intro dt d; rfl
  · intro dt d; rfl

/-- Concrete instance of claim C2 at shape (3,4) reshaped to (12), and at
shape (2,3,4) reshaped to (4,6) and (5,5). -/
theorem claim_C2_witness :
    ((3 : Nat) * 4 = 12 ∧ reshape ⟨[3, 4], .float32, []⟩ [12] = .ok ⟨[12], .float32, []⟩) ∧
    reshape ⟨[2, 3, 4], .int32, []⟩ [4, 6] = .ok ⟨[4, 6], .int32, []⟩ ∧
    reshape ⟨[2, 3, 4], .int32, []⟩ [5, 5] = .error .ShapeMismatch := by
  refine ⟨⟨by decide, claim_C2.1 ⟨[3, 4], .float32, []⟩ [12] (by decide)⟩,
    claim_C2.2.2.1 .int32 [], claim_C2.2.2.2 .int32 []⟩

/-- Claim C3: broadcastTo from shape (6,1) to (6,4) succeeds and every
output row is the corresponding input element replicated 4 times, for
every data vector; broadcastTo from shape (6,2) to (6,4) fails with
BroadcastError. -/
theorem claim_C3 :
    (∀ (dt : DType) (d : List Int),
       broadcastTo ⟨[6, 1], dt, d⟩ [6, 4] =
         .ok ⟨[6, 4], dt, (List.range 6).flatMap fun i => List.replicate 4 (d.getD i 0)⟩) ∧
    (∀ (dt : DType) (d : List Int),
       broadcastTo ⟨[6, 2], dt, d⟩ [6, 4] = .error .BroadcastError) :=
  ⟨fun _ _ => rfl, fun _ _ => rfl⟩

/-- Claim C9: an array created without an explicit dtype has dtype
float32; when a dtype is passed, the created array has exactly that
dtype. -/
theorem claim_C9 :
    (∀ d : List Int, (mkArray d none).dtype = DType.float32) ∧
    (∀ (d : List Int) (dt : DType), (mkArray d (some dt)).dtype = dt) :=
  ⟨fun _ => rfl, fun _ _ => rfl⟩

/-- Claim C10: elementwise addition of a (3,2) array and a (1,2) array
succeeds by broadcasting the length-1 axis, yielding a (3,2) result in
which the (1,2) operand's single row is replicated along axis 0. -/
theorem claim_C10 :
    ∀ (dt : DType) (a b : List Int),
      ndAdd ⟨[3, 2], dt, a⟩ ⟨[1, 2], dt, b⟩ =
        .ok ⟨[3, 2], dt, (List.range 3).flatMap fun i =>
          [a.getD (2 * i) 0 + b.getD 0 0, a.getD (2 * i + 1) 0 + b.getD 1 0]⟩ :=
  fun _ _ _ => rfl

/-- Claim C6: submit returns the new node's id immediately without
executing any kernel — buffer contents and the executed set are
untouched, the node is only recorded; kernels run only inside the
wait-all step. -/
theorem claim_C6 :
    ∀ (s : EngineState) (n : OpNode) (sched : List Nat),
      (submit s n).2 = s.nodes.length ∧
      (submit s n).1.bufs = s.bufs ∧
      (submit s n).1.executed = s.executed ∧
      (submit s n).1.nodes = s.nodes ++ [n] ∧
      (waitAll s sched).bufs = execSched s.nodes s.bufs sched ∧
      (waitAll s sched).executed = s.executed ++ sched :=
  fun _ _ _ => ⟨rfl, rfl, rfl, rfl, rfl, rfl⟩

/-- Claim C8: a handle produced by copy references a fresh Buffer
distinct from the source's, with the contents duplicated, so mutating
either buffer leaves the other unchanged; plain assignment and slicing
return handles sharing the source's Buffer. -/
theorem claim_C8 :
    ∀ (hp : Heap) (h : ArrayHandle), h.bufId < hp.next →
      ((copyArray hp h).2.bufId ≠ h.bufId ∧
        (copyArray hp h).1.store (copyArray hp h).2.bufId = hp.store h.bufId) ∧
      (∀ v, (writeBuf (copyArray hp h).1 (copyArray hp h).2.bufId v).store h.bufId =
        hp.store h.bufId) ∧
      (∀ v, (writeBuf (copyArray hp h).1 h.bufId v).store (copyArray hp h).2.bufId =
        hp.store h.bufId) ∧
      (aliasArray h).bufId = h.bufId ∧
      (∀ lo hi, (sliceArray h lo hi).bufId = h.bufId) := by
  intro hp h hlt
  have hne : h.bufId ≠ hp.next := Nat.ne_of_lt hlt
  refine ⟨⟨fun he => hne he.symm, ?_⟩, ?_, ?_, rfl, fun _ _ => rfl⟩
  · simp [copyArray]
  · intro v; simp [copyArray, writeBuf, hne]
  · intro v; simp [copyArray, writeBuf, hne, Ne.symm hne]

/-- Concrete instance of claim C8 on a one-buffer heap. -/
theorem claim_C8_witness :
    (0 : Nat) < 1 ∧
      (((copyArray ⟨1, fun _ => []⟩ ⟨0, [2]⟩).2.bufId ≠ (⟨0, [2]⟩ : ArrayHandle).bufId ∧
        (copyArray ⟨1, fun _ => []⟩ ⟨0, [2]⟩).1.store
            (copyArray ⟨1, fun _ => []⟩ ⟨0, [2]⟩).2.bufId =
          (⟨1, fun _ => []⟩ : Heap).store (⟨0, [2]⟩ : ArrayHandle).bufId) ∧
      (∀ v, (writeBuf (copyArray ⟨1, fun _ => []⟩ ⟨0, [2]⟩).1
          (copyArray ⟨1, fun _ => []⟩ ⟨0, [2]⟩).2.bufId v).store
            (⟨0, [2]⟩ : ArrayHandle).bufId =
        (⟨1, fun _ => []⟩ : Heap).store (⟨0, [2]⟩ : ArrayHandle).bufId) ∧
      (∀ v, (writeBuf (copyArray ⟨1, fun _ => []⟩ ⟨0, [2]⟩).1
          (⟨0, [2]⟩ : ArrayHandle).bufId v).store
            (copyArray ⟨1, fun _ => []⟩ ⟨0, [2]⟩).2.bufId =
        (⟨1, fun _ => []⟩ : Heap).store (⟨0, [2]⟩ : ArrayHandle).bufId) ∧
      (aliasArray ⟨0, [2]⟩).bufId = (⟨0, [2]⟩ : ArrayHandle).bufId ∧
      (∀ lo hi, (sliceArray ⟨0, [2]⟩ lo hi).bufId = (⟨0, [2]⟩ : ArrayHandle).bufId)) :=
  ⟨by decide, claim_C8 ⟨1, fun _ => []⟩ ⟨0, [2]⟩ (by decide)⟩

lemma recsUpTo_succ_w {subs : List OpNode} {k B : Nat}
    (hw : B ∈ (subs.getD k default).writes) :
    (recsUpTo subs (k + 1)) B = ⟨some k, []⟩ := by
  simp only [recsUpTo, regStep]
  rw [if_pos hw]

lemma recsUpTo_succ_r {subs : List OpNode} {k B : Nat}
    (hw : B ∉ (subs.getD k default).writes) (hr : B ∈ (subs.getD k default).reads) :
    (recsUpTo subs (k + 1)) B =
      ⟨((recsUpTo subs k) B).lastWriter, k :: ((recsUpTo subs k) B).readers⟩ := by
  simp only [recsUpTo, regStep]
  rw [if_neg hw, if_pos hr]

lemma recsUpTo_succ_n {subs : List OpNode} {k B : Nat}
    (hw : B ∉ (subs.getD k default).writes) (hr : B ∉ (subs.getD k default).reads) :
    (recsUpTo subs (k + 1)) B = (recsUpTo subs k) B := by
  simp only [recsUpTo, regStep]
  rw [if_neg hw, if_neg hr]

lemma lastWriter_spec (subs : List OpNode) (B : Nat) :
    ∀ k w, ((recsUpTo subs k) B).lastWriter = some w →
      w < k ∧ B ∈ (subs.getD w default).writes ∧
        ∀ m, w < m → m < k → B ∉ (subs.getD m default).writes := by
  intro k
  induction k with
  | zero => intro w h; simp [recsUpTo] at h
  | succ k ih =>
    intro w h
    by_cases hw : B ∈ (subs.getD k default).writes
    · rw [recsUpTo_succ_w hw] at h
      obtain rfl : k = w := Option.some.inj h
      exact ⟨Nat.lt_succ_self k, hw, fun m h1 h2 => absurd h2 (by omega)⟩
    · have hpres : ((recsUpTo subs (k + 1)) B).lastWriter = ((recsUpTo subs k) B).lastWriter := by
        by_cases hr : B ∈ (subs.getD k default).reads
        · rw [recsUpTo_succ_r hw hr]
        · rw [recsUpTo_succ_n hw hr]
      rw [hpres] at h
      obtain ⟨h1, h2, h3⟩ := ih w h
      refine ⟨Nat.lt_succ_of_lt h1, h2, fun m hm1 hm2 => ?_⟩
      rcases Nat.lt_succ_iff_lt_or_eq.1 hm2 with hm | hm
      · exact h3 m hm1 hm
      · subst hm; exact hw

lemma lastWriter_maximal (subs : List OpNode) (B : Nat) :
    ∀ k j, j < k → B ∈ (subs.getD j default).writes →
      ∃ w, ((recsUpTo subs k) B).lastWriter = some w ∧ j ≤ w ∧ w < k := by
  intro k
  induction k with
  | zero => intro j h; omega
  | succ k ih =>
    intro j hj hB
    by_cases hw : B ∈ (subs.getD k default).writes
    · exact ⟨k, by rw [recsUpTo_succ_w hw], by omega, Nat.lt_succ_self k⟩
    · have hjk : j < k := by
        rcases Nat.lt_succ_iff_lt_or_eq.1 hj with h | h
        · exact h
        · subst h; exact absurd hB hw
      obtain ⟨w, h1, h2, h3⟩ := ih j hjk hB
      have hpres : ((recsUpTo subs (k + 1)) B).lastWriter = ((recsUpTo subs k) B).lastWriter := by
        by_cases hr : B ∈ (subs.getD k default).reads
        · rw [recsUpTo_succ_r hw hr]
        · rw [recsUpTo_succ_n hw hr]
      exact ⟨w, hpres.trans h1, h2, Nat.lt_succ_of_lt h3⟩

lemma readers_mem (subs : List OpNode) (B i : Nat)
    (hr : B ∈ (subs.getD i default).reads) (hnw : B ∉ (subs.getD i default).writes) :
    ∀ k, i < k → (∀ m, i < m → m < k → B ∉ (subs.getD m default).writes) →
      i ∈ ((recsUpTo subs k) B).readers := by
  intro k
  induction k with
  | zero => omega
  | succ k ih =>
    intro hik hnowrite
    rcases Nat.lt_succ_iff_lt_or_eq.1 hik with h | h
    · have hwk : B ∉ (subs.getD k default).writes := hnowrite k h (Nat.lt_succ_self k)
      have hmem := ih h (fun m h1 h2 => hnowrite m h1 (Nat.lt_succ_of_lt h2))
      by_cases hrk : B ∈ (subs.getD k default).reads
      · rw [recsUpTo_succ_r hwk hrk]
        exact List.mem_cons_of_mem k hmem
      · rw [recsUpTo_succ_n hwk hrk]
        exact hmem
    · subst h
      rw [recsUpTo_succ_r hnw hr]
      exact List.mem_cons_self i _

lemma lw_mem_waitSet_of_read {subs : List OpNode} {i B w : Nat}
    (hr : B ∈ (subs.getD i default).reads)
    (hlw : ((recsUpTo subs i) B).lastWriter = some w) :
    w ∈ waitSet subs i := by
  unfold waitSet
  refine List.mem_append_left _ ?_
  exact List.mem_filterMap.2 ⟨B, hr, hlw⟩

lemma lw_mem_waitSet_of_write {subs : List OpNode} {i B w : Nat}
    (hw : B ∈ (subs.getD i default).writes)
    (hlw : ((recsUpTo subs i) B).lastWriter = some w) :
    w ∈ waitSet subs i := by
  unfold waitSet
  refine List.mem_append_right _ ?_
  refine List.mem_flatMap.2 ⟨B, hw, ?_⟩
  refine List.mem_append_right _ ?_
  simp [hlw]

lemma reader_mem_waitSet_of_write {subs : List OpNode} {i j B : Nat}
    (hw : B ∈ (subs.getD j default).writes)
    (hm : i ∈ ((recsUpTo subs j) B).readers) :
    i ∈ waitSet subs j := by
  unfold waitSet
  refine List.mem_append_right _ ?_
  exact List.mem_flatMap.2 ⟨B, hw, List.mem_append_left _ hm⟩

lemma sched_prec (subs : List OpNode) (sched : List Nat) (B : Nat)
    (hv : ValidSchedule subs sched)
    (hmem : ∀ i, i ∈ sched ↔ i < subs.length) :
    ∀ j, j < subs.length → ∀ i, i < j → B ∈ (subs.getD j default).writes →
      (B ∈ (subs.getD i default).reads ∨ B ∈ (subs.getD i default).writes) →
      sched.indexOf i < sched.indexOf j := by
  intro j
  induction j using Nat.strong_induction_on with
  | _ j IH =>
    intro hj i hij hwj hacc
    have hjs : j ∈ sched := (hmem j).2 hj
    rcases hlw : ((recsUpTo subs j) B).lastWriter with _ | w
    · -- no writer of B registered before j
      have hnowrite : ∀ m, m < j → B ∉ (subs.getD m default).writes := by
        intro m hm hBm
        obtain ⟨w, hw, -⟩ := lastWriter_maximal subs B j m hm hBm
        rw [hlw] at hw
        exact Option.noConfusion hw
      have hri : B ∈ (subs.getD i default).reads := by
        rcases hacc with h | h
        · exact h
        · exact absurd h (hnowrite i hij)
      have hrm : i ∈ ((recsUpTo subs j) B).readers :=
        readers_mem subs B i hri (hnowrite i hij) j hij
          (fun m h1 h2 => hnowrite m h2)
      exact hv j hjs i (reader_mem_waitSet_of_write hwj hrm)
    · -- last writer w of B before j
      obtain ⟨hwlt, hwrites, hmax⟩ := lastWriter_spec subs B j w hlw
      have hWj : sched.indexOf w < sched.indexOf j :=
        hv j hjs w (lw_mem_waitSet_of_write hwj hlw)
      rcases Nat.lt_trichotomy i w with h | h | h
      · have hiw : sched.indexOf i < sched.indexOf w :=
          IH w hwlt (by omega) i h hwrites hacc
        omega
      · subst h; exact hWj
      · -- w < i < j : i must be a reader since w is maximal
        have hni : B ∉ (subs.getD i default).writes := hmax i h hij
        have hri : B ∈ (subs.getD i default).reads := by
          rcases hacc with hh | hh
          · exact hh
          · exact absurd hh hni
        have hrm : i ∈ ((recsUpTo subs j) B).readers :=
          readers_mem subs B i hri hni j hij (fun m h1 h2 => hmax m (by omega) h2)
        exact hv j hjs i (reader_mem_waitSet_of_write hwj hrm)

lemma execSched_append (subs : List OpNode) (st : Nat → Int) (l1 l2 : List Nat) :
    execSched subs st (l1 ++ l2) = execSched subs (execSched subs st l1) l2 := by
  simp [execSched, List.foldl_append]

lemma runNode_not_written {n : OpNode} {st : Nat → Int} {B : Nat}
    (h : B ∉ n.writes) : runNode n st B = st B := by
  simp only [runNode]
  rw [if_neg h]

lemma runNode_written {n : OpNode} {st : Nat → Int} {B : Nat}
    (h : B ∈ n.writes) : runNode n st B = n.kernel (n.reads.map st) B := by
  simp only [runNode]
  rw [if_pos h]

lemma execSched_no_write (subs : List OpNode) (B : Nat) :
    ∀ (l : List Nat) (st : Nat → Int),
      (∀ i ∈ l, B ∉ (subs.getD i default).writes) → execSched subs st l B = st B := by
  intro l
  induction l with
  | nil => intro st _; rfl
  | cons a l ih =>
    intro st hno
    have ha : B ∉ (subs.getD a default).writes := hno a (List.mem_cons_self a l)
    have hstep : execSched subs st (a :: l) =
        execSched subs (runNode (subs.getD a default) st) l := rfl
    rw [hstep, ih _ (fun i hi => hno i (List.mem_cons_of_mem a hi))]
    exact runNode_not_written ha

/-- Claim C1: in every schedule respecting the Dependency Graph's
wait-sets, a node C reading buffer B runs after B's registered last
writer A and observes at B exactly the value A's kernel wrote
(read-after-write), and a node writing B runs after every previously
registered reader and writer of B (write-after-read, write-after-write). -/
theorem claim_C1 :
    ∀ (subs : List OpNode) (sched : List Nat) (st0 : Nat → Int) (B : Nat),
      ValidSchedule subs sched → sched.Perm (List.range subs.length) →
      ReadAfterWriteCorrect subs sched st0 B ∧ WriteOrderingRespected subs sched B := by
  intro subs sched st0 B hv hp
  have hmem : ∀ i, i ∈ sched ↔ i < subs.length := by
    intro i; rw [hp.mem_iff, List.mem_range]
  have hnodup : sched.Nodup := hp.nodup_iff.2 (List.nodup_range _)
  have hword : WriteOrderingRespected subs sched B := by
    intro i j hij hj hwj hacc
    exact sched_prec subs sched B hv hmem j hj i hij hwj hacc
  refine ⟨?_, hword⟩
  intro C A hC hBC hlw
  obtain ⟨hAltC, hAw, hmax⟩ := lastWriter_spec subs B C A hlw
  have hCs : C ∈ sched := (hmem C).2 hC
  have hAs : A ∈ sched := (hmem A).2 (by omega)
  have hpC : sched.indexOf C < sched.length := List.indexOf_lt_length.2 hCs
  have hpA : sched.indexOf A < sched.length := List.indexOf_lt_length.2 hAs
  have hAC : sched.indexOf A < sched.indexOf C :=
    hv C hCs A (lw_mem_waitSet_of_read hBC hlw)
  refine ⟨hAC, ?_⟩
  have hsucc : sched.take (sched.indexOf A + 1) = sched.take (sched.indexOf A) ++ [A] := by
    rw [List.take_succ, List.getElem?_eq_getElem hpA, List.getElem_indexOf hpA]
    rfl
  have hdecomp : sched.take (sched.indexOf C) =
      sched.take (sched.indexOf A + 1) ++
        (sched.take (sched.indexOf C)).drop (sched.indexOf A + 1) := by
    conv_lhs => rw [← List.take_append_drop (sched.indexOf A + 1)
      (sched.take (sched.indexOf C))]
    rw [List.take_take, Nat.min_eq_left (by omega)]
  have hmid : ∀ m ∈ (sched.take (sched.indexOf C)).drop (sched.indexOf A + 1),
      B ∉ (subs.getD m default).writes := by
    intro m hm hBm
    obtain ⟨q, hq, hqe⟩ := List.mem_iff_getElem.1 hm
    have hlen : ((sched.take (sched.indexOf C)).drop (sched.indexOf A + 1)).length =
        sched.indexOf C - (sched.indexOf A + 1) := by
      rw [List.length_drop, List.length_take, Nat.min_eq_left (Nat.le_of_lt hpC)]
    have hqlt : sched.indexOf A + 1 + q < sched.indexOf C := by omega
    have hq2 : sched.indexOf A + 1 + q < sched.length := by omega
    have hpm : sched[sched.indexOf A + 1 + q] = m := by
      rw [← hqe, List.getElem_drop, List.getElem_take]
    have hms : m ∈ sched := by
      rw [← hpm]; exact List.getElem_mem hq2
    have h1 : sched.indexOf m < sched.length := List.indexOf_lt_length.2 hms
    have h2 : sched[sched.indexOf m] = m := List.getElem_indexOf h1
    have hidxm : sched.indexOf m = sched.indexOf A + 1 + q :=
      (hnodup.getElem_inj_iff).1 (h2.trans hpm.symm)
    have hmlen : m < subs.length := (hmem m).1 hms
    rcases Nat.lt_trichotomy m C with hmC | hmC | hmC
    · rcases Nat.lt_trichotomy m A with hmA | hmA | hmA
      · have := sched_prec subs sched B hv hmem A (by omega) m hmA hAw (Or.inr hBm)
        omega
      · subst hmA; omega
      · exact hmax m hmA hmC hBm
    · subst hmC; omega
    · have := sched_prec subs sched B hv hmem m hmlen C hmC hBm (Or.inl hBC)
      omega
  rw [hdecomp, execSched_append, execSched_no_write subs B _ _ hmid, hsucc,
    execSched_append]
  have hrun : execSched subs (execSched subs st0 (sched.take (sched.indexOf A))) [A] =
      runNode (subs.getD A default) (execSched subs st0 (sched.take (sched.indexOf A))) := rfl
  rw [hrun, runNode_written hAw]

/-- Concrete instance of claim C1: fill buffer 0, then copy it, under
the in-order schedule. -/
theorem claim_C1_witness :
    ValidSchedule fillThenCopy [0, 1] ∧
      ([0, 1] : List Nat).Perm (List.range fillThenCopy.length) ∧
      (ReadAfterWriteCorrect fillThenCopy [0, 1] (fun _ => 0) 0 ∧
        WriteOrderingRespected fillThenCopy [0, 1] 0) := by
  have hv : ValidSchedule fillThenCopy [0, 1] := by
    unfold ValidSchedule; decide
  have hperm : ([0, 1] : List Nat).Perm (List.range fillThenCopy.length) := by
    decide
  exact ⟨hv, hperm, claim_C1 fillThenCopy [0, 1] (fun _ => 0) 0 hv hperm⟩

lemma runNode_comm (n m : OpNode)
    (hd : ∀ b ∈ n.reads ++ n.writes, b ∉ m.reads ++ m.writes) (st : Nat → Int) :
    runNode m (runNode n st) = runNode n (runNode m st) := by
  funext b
  have hmapm : m.reads.map (runNode n st) = m.reads.map st := by
    refine List.map_congr_left fun r hr => ?_
    refine runNode_not_written fun hw => ?_
    exact hd r (List.mem_append_right _ hw) (List.mem_append_left _ hr)
  have hmapn : n.reads.map (runNode m st) = n.reads.map st := by
    refine List.map_congr_left fun r hr => ?_
    refine runNode_not_written fun hw => ?_
    exact hd r (List.mem_append_left _ hr) (List.mem_append_right _ hw)
  by_cases hm : b ∈ m.writes
  · have hn : b ∉ n.writes := fun hw =>
      hd b (List.mem_append_right _ hw) (List.mem_append_right _ hm)
    rw [runNode_written hm, runNode_not_written hn, runNode_written hm, hmapm]
  · by_cases hn : b ∈ n.writes
    · rw [runNode_not_written hm, runNode_written hn, runNode_written hn, hmapn]
    · rw [runNode_not_written hm, runNode_not_written hn,
        runNode_not_written hn, runNode_not_written hm]

/-- Claim C7: for submissions with pairwise-disjoint buffer footprints,
the final buffer contents are identical across any two execution orders
— the result is deterministic despite non-deterministic completion
order. -/
theorem claim_C7 :
    ∀ (subs : List OpNode) (st0 : Nat → Int) (sched1 sched2 : List Nat),
      IndependentNodes subs → sched1.Perm sched2 → (∀ i ∈ sched1, i < subs.length) →
      execSched subs st0 sched1 = execSched subs st0 sched2 := by
  intro subs st0 s1 s2 hind hperm hlt
  unfold execSched
  refine hperm.foldl_eq' ?_ st0
  intro x hx y hy z
  by_cases hxy : x = y
  · subst hxy; rfl
  · exact runNode_comm (subs.getD x default) (subs.getD y default)
      (hind x (hlt x hx) y (hlt y hy) hxy) z

/-- Concrete instance of claim C7: two independent fills executed in the
two opposite orders. -/
theorem claim_C7_witness :
    IndependentNodes twoIndependent ∧
      ([0, 1] : List Nat).Perm [1, 0] ∧ (∀ i ∈ ([0, 1] : List Nat), i < twoIndependent.length) ∧
      execSched twoIndependent (fun _ => 0) [0, 1] = execSched twoIndependent (fun _ => 0) [1, 0] := by
  have hind : IndependentNodes twoIndependent := by
    intro i hi j hj hij b hb
    have hi2 : i < 2 := hi
    have hj2 : j < 2 := hj
    interval_cases i <;> interval_cases j <;> simp_all [twoIndependent]
  have hperm : ([0, 1] : List Nat).Perm [1, 0] := by decide
  have hlt : ∀ i ∈ ([0, 1] : List Nat), i < twoIndependent.length := by decide
  exact ⟨hind, hperm, hlt, claim_C7 twoIndependent (fun _ => 0) [0, 1] [1, 0] hind hperm hlt⟩

lemma length_outcomesUpTo (nodes : List FNode) : ∀ k, (outcomesUpTo nodes k).length = k := by
  intro k
  induction k with
  | zero => rfl
  | succ k ih => simp only [outcomesUpTo, List.length_append, ih, List.length_singleton]

lemma outcomesUpTo_getD_stable (nodes : List FNode) :
    ∀ k j, j < k →
      (outcomesUpTo nodes k).getD j .Done = (outcomesUpTo nodes (j + 1)).getD j .Done := by
  intro k
  induction k with
  | zero => omega
  | succ k ih =>
    intro j hj
    rcases Nat.lt_succ_iff_lt_or_eq.1 hj with h | h
    · have hstep : (outcomesUpTo nodes (k + 1)).getD j .Done =
          (outcomesUpTo nodes k).getD j .Done := by
        simp only [outcomesUpTo]
        exact List.getD_append _ _ _ j (by rw [length_outcomesUpTo]; exact h)
      rw [hstep, ih j h]
    · subst h; rfl

lemma outcomeAt_step (nodes : List FNode) (j : Nat) (hj : j < nodes.length) :
    outcomeAt nodes j = stepOutcome (outcomesUpTo nodes j) (nodes.getD j default) := by
  unfold outcomeAt outcomes
  rw [outcomesUpTo_getD_stable nodes nodes.length j hj]
  simp only [outcomesUpTo]
  rw [List.getD_append_right _ _ _ _ (by rw [length_outcomesUpTo])]
  rw [length_outcomesUpTo]
  simp

lemma firstFailedDep_congr (acc1 acc2 : List Outcome) :
    ∀ deps : List Nat, (∀ d ∈ deps, acc1.getD d .Done = acc2.getD d .Done) →
      firstFailedDep acc1 deps = firstFailedDep acc2 deps := by
  intro deps
  induction deps with
  | nil => intro _; rfl
  | cons a l ih =>
    intro h
    unfold firstFailedDep
    rw [List.findSome?_cons, List.findSome?_cons,
      h a (List.mem_cons_self a l)]
    have hrec := ih fun d hd => h d (List.mem_cons_of_mem a hd)
    unfold firstFailedDep at hrec
    rw [hrec]

lemma getD_outcomes_eq (nodes : List FNode) {d j : Nat} (hd : d < j) (hj : j ≤ nodes.length) :
    (outcomesUpTo nodes j).getD d .Done = (outcomes nodes).getD d .Done := by
  unfold outcomes
  rw [outcomesUpTo_getD_stable nodes j d hd,
    outcomesUpTo_getD_stable nodes nodes.length d (by omega)]

lemma wf_deps_all {nodes : List FNode} (hwf : WfDeps nodes) :
    ∀ j, ∀ d ∈ (nodes.getD j default).deps, d < j := by
  intro j d hd
  by_cases hj : j < nodes.length
  · exact hwf j hj d hd
  · rw [List.getD_eq_default _ _ (by omega)] at hd
    exact absurd hd (List.not_mem_nil d)

lemma dependsOn_lt {nodes : List FNode} (hwf : WfDeps nodes) {j i : Nat} :
    DependsOn nodes j i → i < j := by
  intro h
  induction h with
  | direct hd => exact wf_deps_all hwf _ _ hd
  | tail hk _ ih => exact Nat.lt_trans ih (wf_deps_all hwf _ _ hk)

lemma dependsOn_inv {nodes : List FNode} {j i : Nat} (h : DependsOn nodes j i) :
    ∃ d ∈ (nodes.getD j default).deps, d = i ∨ DependsOn nodes d i := by
  cases h with
  | direct hd => exact ⟨i, hd, Or.inl rfl⟩
  | tail hk hki => exact ⟨_, hk, Or.inr hki⟩

lemma outcomeAt_unfold (nodes : List FNode) (hwf : WfDeps nodes) (j : Nat)
    (hj : j < nodes.length) :
    outcomeAt nodes j =
      match firstFailedDep (outcomes nodes) (nodes.getD j default).deps with
      | some e => .Failed e
      | none =>
        match (nodes.getD j default).inject with
        | some e => .Failed e
        | none => .Done := by
  rw [outcomeAt_step nodes j hj]
  unfold stepOutcome
  rw [firstFailedDep_congr (outcomesUpTo nodes j) (outcomes nodes)
    (nodes.getD j default).deps
    (fun d hd => getD_outcomes_eq nodes (wf_deps_all hwf j d hd) (Nat.le_of_lt hj))]

lemma firstFailedDep_none {acc : List Outcome} :
    ∀ {deps : List Nat}, (∀ d ∈ deps, acc.getD d .Done = .Done) →
      firstFailedDep acc deps = none := by
  intro deps
  induction deps with
  | nil => intro _; rfl
  | cons a l ih =>
    intro h
    unfold firstFailedDep
    rw [List.findSome?_cons, h a (List.mem_cons_self a l)]
    have hrec := ih fun d hd => h d (List.mem_cons_of_mem a hd)
    unfold firstFailedDep at hrec
    rw [hrec]

lemma firstFailedDep_some {acc : List Outcome} {e : FailKind} :
    ∀ {deps : List Nat},
      (∀ d ∈ deps, acc.getD d .Done = .Done ∨ acc.getD d .Done = .Failed e) →
      (∃ d ∈ deps, acc.getD d .Done = .Failed e) →
      firstFailedDep acc deps = some e := by
  intro deps
  induction deps with
  | nil => intro _ hex; obtain ⟨d, hd, -⟩ := hex; exact absurd hd (List.not_mem_nil d)
  | cons a l ih =>
    intro hall hex
    unfold firstFailedDep
    rw [List.findSome?_cons]
    rcases hall a (List.mem_cons_self a l) with ha | ha
    · rw [ha]
      have hex2 : ∃ d ∈ l, acc.getD d .Done = .Failed e := by
        obtain ⟨d, hd, hde⟩ := hex
        rcases List.mem_cons.1 hd with rfl | hd2
        · rw [ha] at hde; exact absurd hde (by simp)
        · exact ⟨d, hd2, hde⟩
      have hrec := ih (fun d hd => hall d (List.mem_cons_of_mem a hd)) hex2
      unfold firstFailedDep at hrec
      rw [hrec]
    · rw [ha]

/-- Claim C5: if node A is the only failing node (injected
KernelFailure or AllocationFailure), every node depending on it directly
or transitively reaches Failed carrying A's root error verbatim without
its kernel executing, while every node with no dependency path from A
reaches Done; A itself fails with the injected error after its own
kernel ran. -/
theorem claim_C5 :
    ∀ (nodes : List FNode) (A : Nat) (e : FailKind),
      WfDeps nodes → A < nodes.length →
      (nodes.getD A default).inject = some e →
      (∀ i < nodes.length, i ≠ A → (nodes.getD i default).inject = none) →
      (∀ j < nodes.length, DependsOn nodes j A →
        outcomeAt nodes j = .Failed e ∧ kernelRan nodes j = false) ∧
      (∀ j < nodes.length, j ≠ A → ¬ DependsOn nodes j A → outcomeAt nodes j = .Done) ∧
      (outcomeAt nodes A = .Failed e ∧ kernelRan nodes A = true) := by
  intro nodes A e hwf hA hinj huniq
  have key : ∀ j, j < nodes.length →
      ((DependsOn nodes j A ∨ j = A) → outcomeAt nodes j = .Failed e) ∧
      (¬ (DependsOn nodes j A ∨ j = A) → outcomeAt nodes j = .Done) := by
    intro j
    induction j using Nat.strong_induction_on with
    | _ j IH =>
      intro hj
      have hdeps : ∀ d ∈ (nodes.getD j default).deps, d < j := wf_deps_all hwf j
      have hdlen : ∀ d ∈ (nodes.getD j default).deps, d < nodes.length :=
        fun d hd => Nat.lt_trans (hdeps d hd) hj
      have hall : ∀ d ∈ (nodes.getD j default).deps,
          (outcomes nodes).getD d .Done = .Done ∨
            (outcomes nodes).getD d .Done = .Failed e := by
        intro d hd
        by_cases hda : DependsOn nodes d A ∨ d = A
        · exact Or.inr (((IH d (hdeps d hd) (hdlen d hd)).1) hda)
        · exact Or.inl (((IH d (hdeps d hd) (hdlen d hd)).2) hda)
      constructor
      · intro hda
        rcases hda with hdep | rfl
        · obtain ⟨d, hd, hcase⟩ := dependsOn_inv hdep
          have hdfail : (outcomes nodes).getD d .Done = .Failed e := by
            refine ((IH d (hdeps d hd) (hdlen d hd)).1) ?_
            rcases hcase with rfl | h
            · exact Or.inr rfl
            · exact Or.inl h
          rw [outcomeAt_unfold nodes hwf j hj,
            firstFailedDep_some hall ⟨d, hd, hdfail⟩]
        · -- j = A : its own kernel fails with the injected error
          have hnone : ∀ d ∈ (nodes.getD j default).deps,
              (outcomes nodes).getD d .Done = .Done := by
            intro d hd
            have hdj : d < j := hdeps d hd
            refine ((IH d hdj (hdlen d hd)).2) ?_
            rintro (hdep | rfl)
            · have := dependsOn_lt hwf hdep
              omega
            · exact absurd hdj (Nat.lt_irrefl _)
          rw [outcomeAt_unfold nodes hwf j hj, firstFailedDep_none hnone, hinj]
      · intro hnda
        have hnone : ∀ d ∈ (nodes.getD j default).deps,
            (outcomes nodes).getD d .Done = .Done := by
          intro d hd
          refine ((IH d (hdeps d hd) (hdlen d hd)).2) ?_
          rintro (hdep | rfl)
          · exact hnda (Or.inl (DependsOn.tail hd hdep))
          · exact hnda (Or.inl (DependsOn.direct hd))
        have hj_ne : j ≠ A := fun h => hnda (Or.inr h)
        rw [outcomeAt_unfold nodes hwf j hj, firstFailedDep_none hnone,
          huniq j hj hj_ne]
  refine ⟨?_, ?_, ?_⟩
  · intro j hj hdep
    refine ⟨(key j hj).1 (Or.inl hdep), ?_⟩
    obtain ⟨d, hd, hcase⟩ := dependsOn_inv hdep
    have hdeps : ∀ d ∈ (nodes.getD j default).deps, d < j := wf_deps_all hwf j
    have hdlen : d < nodes.length := Nat.lt_trans (hdeps d hd) hj
    have hdfail : (outcomes nodes).getD d .Done = .Failed e := by
      refine (key d hdlen).1 ?_
      rcases hcase with rfl | h
      · exact Or.inr rfl
      · exact Or.inl h
    have hall : ∀ d ∈ (nodes.getD j default).deps,
        (outcomes nodes).getD d .Done = .Done ∨
          (outcomes nodes).getD d .Done = .Failed e := by
      intro d2 hd2
      have hd2len : d2 < nodes.length := Nat.lt_trans (hdeps d2 hd2) hj
      by_cases hda : DependsOn nodes d2 A ∨ d2 = A
      · exact Or.inr ((key d2 hd2len).1 hda)
      · exact Or.inl ((key d2 hd2len).2 hda)
    unfold kernelRan
    rw [firstFailedDep_some hall ⟨d, hd, hdfail⟩]
    rfl
  · intro j hj hne hnd
    exact (key j hj).2 (by rintro (h | h) <;> [exact hnd h; exact hne h])
  · refine ⟨(key A hA).1 (Or.inr rfl), ?_⟩
    have hnone : ∀ d ∈ (nodes.getD A default).deps,
        (outcomes nodes).getD d .Done = .Done := by
      intro d hd
      have hdA : d < A := wf_deps_all hwf A d hd
      refine (key d (by omega)).2 ?_
      rintro (hdep | rfl)
      · have := dependsOn_lt hwf hdep
        omega
      · exact absurd hdA (Nat.lt_irrefl _)
    unfold kernelRan
    rw [firstFailedDep_none hnone]
    rfl

/-- Concrete instance of claim C5: node 0 fails with AllocationFailure,
node 1 depends on it, node 2 is unrelated. -/
theorem claim_C5_witness :
    WfDeps failChain ∧ 0 < failChain.length ∧
      (failChain.getD 0 default).inject = some .AllocationFailure ∧
      (∀ i < failChain.length, i ≠ 0 → (failChain.getD i default).inject = none) ∧
      ((∀ j < failChain.length, DependsOn failChain j 0 →
          outcomeAt failChain j = .Failed .AllocationFailure ∧ kernelRan failChain j = false) ∧
        (∀ j < failChain.length, j ≠ 0 → ¬ DependsOn failChain j 0 →
          outcomeAt failChain j = .Done) ∧
        (outcomeAt failChain 0 = .Failed .AllocationFailure ∧ kernelRan failChain 0 = true)) := by
  have hwf : WfDeps failChain := by unfold WfDeps; decide
  have hA : 0 < failChain.length := by decide
  have hinj : (failChain.getD 0 default).inject = some .AllocationFailure := by decide
  have huniq : ∀ i < failChain.length, i ≠ 0 → (failChain.getD i default).inject = none := by
    decide
  exact ⟨hwf, hA, hinj, huniq, claim_C5 failChain 0 .AllocationFailure hwf hA hinj huniq⟩
